import Mathlib

/-!
Verification of the f1-2d-replay derivation pipeline (src/generate_static.py,
src/server.py) against its natural-language specification.

Python floats are modelled as exact rationals (`ℚ`), Python `None`-able values
as `Option`, and Python dicts as association lists or lookup functions.
Race-relative timestamps (which the source obtains as
`to_seconds(parse_iso(date), race_start)`) are modelled directly as rationals.
-/

namespace F1Replay

/-- A position sample of one driver: race-relative timestamp `t` and plane
coordinates `x`, `y` (the parallel arrays `ts`, `xs`, `ys` of
src/generate_static.py:459-467, zipped into one list of triples). -/
structure Sample where
  t : ℚ
  x : ℚ
  y : ℚ
deriving DecidableEq

instance : Inhabited Sample := ⟨⟨0, 0, 0⟩⟩

/-- Python's one-argument `round`: round half to even (banker's rounding),
acting on an exactly represented value. -/
def pyRound (q : ℚ) : ℤ :=
  if q - ⌊q⌋ < 1/2 then ⌊q⌋
  else if 1/2 < q - ⌊q⌋ then ⌊q⌋ + 1
  else if ⌊q⌋ % 2 = 0 then ⌊q⌋ else ⌊q⌋ + 1

/-- Python's `round(x, 2)`: round to a multiple of 1/100, half to even. -/
def round2 (q : ℚ) : ℚ := (pyRound (q * 100) : ℚ) / 100

/-- The timestamp grid used throughout: `q` is an integer multiple of 1/100.
The pipeline rounds every race-relative timestamp with `round(t, 2)`
(src/generate_static.py:465) before resampling, so all resampler inputs
satisfy this. Stated decidably via the reduced denominator. -/
def Centi (q : ℚ) : Prop := (q * 100).den = 1

instance (q : ℚ) : Decidable (Centi q) := inferInstanceAs (Decidable (_ = _))

theorem pyRound_intCast (n : ℤ) : pyRound (n : ℚ) = n := by
  simp [pyRound, Int.floor_intCast]

theorem den_eq_one_exists {q : ℚ} (h : q.den = 1) : ∃ n : ℤ, q = (n : ℚ) :=
  ⟨q.num, by rw [← Rat.num_div_den q, h]; push_cast; simp⟩

theorem centi_exists {q : ℚ} (h : Centi q) : ∃ n : ℤ, q = (n : ℚ) / 100 := by
  obtain ⟨n, hn⟩ := den_eq_one_exists h
  exact ⟨n, by field_simp at hn ⊢; linarith⟩

theorem round2_centi {q : ℚ} (h : Centi q) : round2 q = q := by
  obtain ⟨n, hn⟩ := centi_exists h
  subst hn
  rw [round2]
  rw [show (n : ℚ) / 100 * 100 = (n : ℚ) by field_simp]
  rw [pyRound_intCast]

theorem centi_add {a b : ℚ} (ha : Centi a) (hb : Centi b) : Centi (a + b) := by
  obtain ⟨m, hm⟩ := centi_exists ha
  obtain ⟨n, hn⟩ := centi_exists hb
  subst hm hn
  have h100 : ((m : ℚ) / 100 + (n : ℚ) / 100) * 100 = ((m + n : ℤ) : ℚ) := by
    push_cast; ring
  show (((m : ℚ) / 100 + (n : ℚ) / 100) * 100).den = 1
  rw [h100]
  exact Rat.den_intCast _

/-- The fixed resampling step `RESAMPLE_DT = 0.25` (src/generate_static.py:475). -/
def RESAMPLE_DT : ℚ := 1/4

theorem centi_nat_mul_dt (k : ℕ) : Centi ((k : ℚ) * RESAMPLE_DT) := by
  have h100 : ((k : ℚ) * RESAMPLE_DT) * 100 = ((25 * k : ℤ) : ℚ) := by
    rw [RESAMPLE_DT]; push_cast; ring
  show (((k : ℚ) * RESAMPLE_DT) * 100).den = 1
  rw [h100]
  exact Rat.den_intCast _

/-- Fuelled body of `advanceJ`; the fuel only bounds the iteration count and
never runs out when called with `fuel = ss.length - j` (the loop guard
`j < ss.length - 1` fails once `fuel` would be needed beyond that). -/
def advanceJGo (ss : List Sample) (cursor : ℚ) : ℕ → ℕ → ℕ
  | 0, j => j
  | fuel + 1, j =>
    if j < ss.length - 1 ∧ (ss.getD j default).t < cursor then
      advanceJGo ss cursor fuel (j + 1)
    else j

/-- The inner `while` of the resampling loop (src/generate_static.py:483-484):
advance `j` while `j < len(ts) - 1` and `ts[j] < t_cursor`. -/
def advanceJ (ss : List Sample) (cursor : ℚ) (j : ℕ) : ℕ :=
  advanceJGo ss cursor (ss.length - j) j

/-- One loop body emission of the resampling loop
(src/generate_static.py:485-494): at `j = 0` hold the first raw sample,
otherwise linearly interpolate between samples `j-1` and `j`, guarding a zero
denominator by fraction 0; the timestamp is emitted through `round(·, 2)` and
the coordinates through integer `round`. -/
def emitAt (ss : List Sample) (cursor : ℚ) (j : ℕ) : Sample :=
  if j = 0 then
    { t := round2 cursor, x := (ss.getD 0 default).x, y := (ss.getD 0 default).y }
  else
    let s0 := ss.getD (j - 1) default
    let s1 := ss.getD j default
    let frac := if s1.t ≠ s0.t then (cursor - s0.t) / (s1.t - s0.t) else 0
    { t := round2 cursor
      x := (pyRound (s0.x + frac * (s1.x - s0.x)) : ℚ)
      y := (pyRound (s0.y + frac * (s1.y - s0.y)) : ℚ) }

/-- The `while t_cursor <= t_end` resampling loop (src/generate_static.py:481-495),
with an explicit fuel bound on the number of iterations (`resample` supplies
enough fuel for the loop to run to completion). -/
def resampleLoop (ss : List Sample) (tEnd dt : ℚ) : ℕ → ℚ → ℕ → List Sample
  | 0, _, _ => []
  | fuel + 1, cursor, j =>
    if cursor ≤ tEnd then
      let j' := advanceJ ss cursor j
      emitAt ss cursor j' :: resampleLoop ss tEnd dt fuel (cursor + dt) j'
    else []

/-- Number of grid points `t0, t0 + dt, …` that are `≤ tEnd` (for `dt > 0`). -/
def gridCount (t0 tEnd dt : ℚ) : ℕ :=
  if t0 ≤ tEnd then (⌊(tEnd - t0) / dt⌋).toNat + 1 else 0

/-- The resampler of `main` (src/generate_static.py:475-495): starting from
`t_cursor = ts[0]` and `j = 0`, iterate the loop until `t_cursor > ts[-1]`.
An empty trace is never resampled by the source (guarded by `if not ts:
continue` at line 469), and produces the empty output here. -/
def resample (ss : List Sample) : List Sample :=
  match ss with
  | [] => []
  | s :: rest =>
    let t0 := s.t
    let tEnd := ((s :: rest).getLast (List.cons_ne_nil s rest)).t
    resampleLoop (s :: rest) tEnd RESAMPLE_DT
      (gridCount t0 tEnd RESAMPLE_DT) t0 0

/-- Index of the earliest raw sample at or after time `t` (`List.findIdx`
returns `ss.length` when there is none). For a sorted trace, samples
`leastUpper - 1` and `leastUpper` are the two raw samples bracketing `t`. -/
def leastUpper (ss : List Sample) (t : ℚ) : ℕ :=
  ss.findIdx (fun s => decide (t ≤ s.t))

/-- Modelled from the spec (§4.1): the output entry at a single grid point `t`
is the linear interpolation of the two bracketing raw samples, with fraction
`(t - t0)/(t1 - t0)` treated as 0 when `t1 = t0`; for a grid point at or
before the first timestamp the first sample is held; coordinates are rounded
to fixed precision (integer units, banker's rounding). The timestamp is the
grid point itself. -/
def specEntry (ss : List Sample) (t : ℚ) : Sample :=
  let j := leastUpper ss t
  if j = 0 then
    { t := t, x := (ss.getD 0 default).x, y := (ss.getD 0 default).y }
  else
    let s0 := ss.getD (j - 1) default
    let s1 := ss.getD j default
    let frac := if s1.t ≠ s0.t then (t - s0.t) / (s1.t - s0.t) else 0
    { t := t
      x := (pyRound (s0.x + frac * (s1.x - s0.x)) : ℚ)
      y := (pyRound (s0.y + frac * (s1.y - s0.y)) : ℚ) }

/-- Modelled from the spec (§4.1): output sampled exactly at the grid points
`t₀, t₀ + dt, …` up to and including the last grid point `≤ t_max`, each entry
given by `specEntry`. -/
def specResample (ss : List Sample) : List Sample :=
  match ss with
  | [] => []
  | s :: rest =>
    let t0 := s.t
    let tEnd := ((s :: rest).getLast (List.cons_ne_nil s rest)).t
    (List.range (gridCount t0 tEnd RESAMPLE_DT)).map
      (fun (k : ℕ) => specEntry (s :: rest) (t0 + (k : ℚ) * RESAMPLE_DT))

theorem leastUpper_le_length (ss : List Sample) (t : ℚ) :
    leastUpper ss t ≤ ss.length :=
  List.findIdx_le_length _

theorem t_lt_of_lt_leastUpper {ss : List Sample} {t : ℚ} {i : ℕ}
    (h : i < leastUpper ss t) (hi : i < ss.length) :
    (ss.getD i default).t < t := by
  have h' : i < List.findIdx (fun s => decide (t ≤ s.t)) ss := h
  have := List.not_of_lt_findIdx h'
  rw [List.getD_eq_getElem ss default hi]
  simpa using this

set_option maxHeartbeats 1000000 in
theorem le_t_leastUpper {ss : List Sample} {t : ℚ}
    (h : leastUpper ss t < ss.length) :
    t ≤ (ss.getD (leastUpper ss t) default).t := by
  have h' : List.findIdx (fun s => decide (t ≤ s.t)) ss < ss.length := h
  have h2 := @List.findIdx_getElem _ (fun s => decide (t ≤ s.t)) ss h'
  rw [List.getD_eq_getElem ss default h]
  exact of_decide_eq_true h2

theorem leastUpper_mono {ss : List Sample} {c c' : ℚ} (h : c ≤ c') :
    leastUpper ss c ≤ leastUpper ss c' := by
  by_contra h'
  push_neg at h'
  have hi : leastUpper ss c' < ss.length :=
    lt_of_lt_of_le h' (leastUpper_le_length ss c)
  have h1 : c' ≤ (ss.getD (leastUpper ss c') default).t := le_t_leastUpper hi
  have h2 : (ss.getD (leastUpper ss c') default).t < c := t_lt_of_lt_leastUpper h' hi
  linarith

theorem leastUpper_le_sub_one {ss : List Sample} (hne : ss ≠ []) {c : ℚ}
    (hc : c ≤ (ss.getLast hne).t) : leastUpper ss c ≤ ss.length - 1 := by
  by_contra h'
  push_neg at h'
  have hlen : 0 < ss.length := List.length_pos.mpr hne
  have hidx : ss.length - 1 < ss.length := by omega
  have := t_lt_of_lt_leastUpper h' hidx
  rw [List.getD_eq_getElem ss default hidx] at this
  rw [List.getLast_eq_getElem] at hc
  linarith

theorem advanceJGo_eq {ss : List Sample} {c : ℚ}
    (hL : leastUpper ss c ≤ ss.length - 1) :
    ∀ (fuel j : ℕ), j ≤ leastUpper ss c → leastUpper ss c ≤ j + fuel →
      advanceJGo ss c fuel j = leastUpper ss c := by
  intro fuel
  induction fuel with
  | zero =>
    intro j hj hf
    simp only [advanceJGo]
    omega
  | succ n ih =>
    intro j hj hf
    rcases Nat.lt_or_ge j (leastUpper ss c) with hlt | hge
    · have hlen : j < ss.length := by omega
      have ht : (ss.getD j default).t < c := t_lt_of_lt_leastUpper hlt hlen
      have hcond : j < ss.length - 1 ∧ (ss.getD j default).t < c := ⟨by omega, ht⟩
      simp only [advanceJGo, if_pos hcond]
      exact ih (j + 1) (by omega) (by omega)
    · have hj2 : j = leastUpper ss c := le_antisymm hj hge
      rw [hj2]
      have hcond : ¬(leastUpper ss c < ss.length - 1 ∧
          (ss.getD (leastUpper ss c) default).t < c) := by
        rintro ⟨hlt1, hlt2⟩
        have hlen : leastUpper ss c < ss.length := by omega
        have := le_t_leastUpper hlen
        linarith
      simp only [advanceJGo, if_neg hcond]

theorem advanceJ_eq {ss : List Sample} {c : ℚ} {j : ℕ}
    (hL : leastUpper ss c ≤ ss.length - 1) (hj : j ≤ leastUpper ss c) :
    advanceJ ss c j = leastUpper ss c := by
  rw [advanceJ]
  exact advanceJGo_eq hL (ss.length - j) j hj (by omega)

theorem gridCount_succ {t0 tEnd dt : ℚ} (hdt : 0 < dt) (h : t0 ≤ tEnd) :
    gridCount t0 tEnd dt = gridCount (t0 + dt) tEnd dt + 1 := by
  rw [gridCount, gridCount, if_pos h]
  by_cases h2 : t0 + dt ≤ tEnd
  · rw [if_pos h2]
    have key : (tEnd - t0) / dt = (tEnd - (t0 + dt)) / dt + 1 := by
      field_simp
      ring
    have hnn : (0 : ℤ) ≤ ⌊(tEnd - (t0 + dt)) / dt⌋ :=
      Int.floor_nonneg.mpr (div_nonneg (by linarith) hdt.le)
    rw [key, Int.floor_add_one]
    omega
  · rw [if_neg h2]
    push_neg at h2
    have h0 : (0 : ℚ) ≤ (tEnd - t0) / dt := div_nonneg (by linarith) hdt.le
    have h1 : (tEnd - t0) / dt < 1 := (div_lt_one hdt).mpr (by linarith)
    have : ⌊(tEnd - t0) / dt⌋ = 0 := Int.floor_eq_zero_iff.mpr ⟨h0, h1⟩
    omega

theorem sorted_t_le {ss : List Sample}
    (hs : ss.Pairwise (fun a b => a.t ≤ b.t)) {i k : ℕ}
    (hik : i ≤ k) (hk : k < ss.length) :
    (ss.getD i default).t ≤ (ss.getD k default).t := by
  rcases Nat.eq_or_lt_of_le hik with rfl | hlt
  · exact le_refl _
  · rw [List.getD_eq_getElem ss default (lt_trans hlt hk),
      List.getD_eq_getElem ss default hk]
    exact List.pairwise_iff_getElem.mp hs i k (lt_trans hlt hk) hk hlt

theorem resampleLoop_eq {ss : List Sample} (hne : ss ≠ [])
    {dt : ℚ} (hdt : 0 < dt) :
    ∀ (fuel : ℕ) (cursor : ℚ) (j : ℕ),
      j ≤ leastUpper ss cursor →
      gridCount cursor (ss.getLast hne).t dt ≤ fuel →
      resampleLoop ss (ss.getLast hne).t dt fuel cursor j =
        (List.range (gridCount cursor (ss.getLast hne).t dt)).map
          (fun (k : ℕ) => emitAt ss (cursor + (k : ℚ) * dt)
            (leastUpper ss (cursor + (k : ℚ) * dt))) := by
  intro fuel
  induction fuel with
  | zero =>
    intro cursor j hj hf
    have h0 : gridCount cursor (ss.getLast hne).t dt = 0 := Nat.le_zero.mp hf
    simp [resampleLoop, h0]
  | succ n ih =>
    intro cursor j hj hf
    by_cases hcur : cursor ≤ (ss.getLast hne).t
    · have hL : leastUpper ss cursor ≤ ss.length - 1 :=
        leastUpper_le_sub_one hne hcur
      have hadv : advanceJ ss cursor j = leastUpper ss cursor := advanceJ_eq hL hj
      have hgc : gridCount cursor (ss.getLast hne).t dt =
          gridCount (cursor + dt) (ss.getLast hne).t dt + 1 :=
        gridCount_succ hdt hcur
      have hjnext : leastUpper ss cursor ≤ leastUpper ss (cursor + dt) :=
        leastUpper_mono (by linarith)
      have htail := ih (cursor + dt) (leastUpper ss cursor) hjnext (by omega)
      simp only [resampleLoop, if_pos hcur, hadv, htail, hgc,
        List.range_succ_eq_map, List.map_cons, List.map_map]
      refine congrArg₂ List.cons ?_ ?_
      · norm_num
      · refine List.map_congr_left (fun k hk => ?_)
        have harg : cursor + dt + (k : ℚ) * dt = cursor + ((k : ℚ) + 1) * dt := by
          ring
        simp only [Function.comp_apply, Nat.succ_eq_add_one, Nat.cast_add,
          Nat.cast_one, harg]
    · have h0 : gridCount cursor (ss.getLast hne).t dt = 0 := by
        rw [gridCount, if_neg hcur]
      simp [resampleLoop, if_neg hcur, h0]

theorem resample_eq_grid {ss : List Sample} (hne : ss ≠ []) :
    resample ss =
      (List.range (gridCount (ss.head hne).t (ss.getLast hne).t RESAMPLE_DT)).map
        (fun (k : ℕ) => emitAt ss ((ss.head hne).t + (k : ℚ) * RESAMPLE_DT)
          (leastUpper ss ((ss.head hne).t + (k : ℚ) * RESAMPLE_DT))) := by
  obtain ⟨s, rest, rfl⟩ := List.exists_cons_of_ne_nil hne
  have hdt : (0:ℚ) < RESAMPLE_DT := by norm_num [RESAMPLE_DT]
  have h := resampleLoop_eq hne hdt
    (gridCount s.t ((s :: rest).getLast hne).t RESAMPLE_DT) s.t 0
    (Nat.zero_le _) le_rfl
  simpa [resample] using h

theorem emitAt_eq_specEntry {ss : List Sample} {t : ℚ} (hc : Centi t) :
    emitAt ss t (leastUpper ss t) = specEntry ss t := by
  simp only [emitAt, specEntry, round2_centi hc]

theorem head_t_le_getLast_t {ss : List Sample} (hne : ss ≠ [])
    (hs : ss.Pairwise (fun a b => a.t ≤ b.t)) :
    (ss.head hne).t ≤ (ss.getLast hne).t := by
  have hlen : 0 < ss.length := List.length_pos.mpr hne
  have h := sorted_t_le hs (Nat.zero_le (ss.length - 1)) (by omega)
  rw [List.getD_eq_getElem ss default (by omega),
    List.getD_eq_getElem ss default (by omega)] at h
  rw [List.head_eq_getElem, List.getLast_eq_getElem]
  exact h

/-- C1: for every sorted, nonempty input trace on the centisecond timestamp
grid (as the pipeline produces upstream via `round(t, 2)`), the resampler
outputs exactly the grid points `t_min, t_min + dt, …` up to the last grid
point `≤ t_max` with each entry the linear interpolation of the two
bracketing raw samples (`specResample`, modelled from the spec), and the
output length is `⌊(t_max - t_min)/dt⌋ + 1`. -/
theorem resampler_meets_spec (ss : List Sample) (hne : ss ≠ [])
    (hs : ss.Pairwise (fun a b => a.t ≤ b.t))
    (hc : ∀ s ∈ ss, Centi s.t) :
    resample ss = specResample ss ∧
      ((resample ss).length : ℤ) =
        ⌊((ss.getLast hne).t - (ss.head hne).t) / RESAMPLE_DT⌋ + 1 := by
  have hg := resample_eq_grid hne
  have hle := head_t_le_getLast_t hne hs
  have hmain : resample ss = specResample ss := by
    obtain ⟨s, rest, rfl⟩ := List.exists_cons_of_ne_nil hne
    rw [hg]
    simp only [specResample, List.head_cons]
    refine List.map_congr_left (fun k hk => ?_)
    have hcent : Centi (s.t + (k : ℚ) * RESAMPLE_DT) :=
      centi_add (hc s (List.mem_cons_self s rest)) (centi_nat_mul_dt k)
    exact emitAt_eq_specEntry hcent
  refine ⟨hmain, ?_⟩
  rw [hg]
  rw [List.length_map, List.length_range, gridCount, if_pos hle]
  have hnn : (0:ℤ) ≤ ⌊((ss.getLast hne).t - (ss.head hne).t) / RESAMPLE_DT⌋ :=
    Int.floor_nonneg.mpr (div_nonneg (by linarith) (by norm_num [RESAMPLE_DT]))
  push_cast [Int.toNat_of_nonneg hnn]
  ring

theorem sample_eta (a : Sample) : (⟨a.t, a.x, a.y⟩ : Sample) = a := rfl

theorem specEntry_t (ss : List Sample) (t : ℚ) : (specEntry ss t).t = t := by
  rw [specEntry]
  split <;> rfl

theorem leastUpper_cons_ne_zero {s : Sample} {rest : List Sample} {t : ℚ}
    (h : s.t < t) : leastUpper (s :: rest) t ≠ 0 := by
  have hd : decide (t ≤ s.t) = false := decide_eq_false (not_le.mpr h)
  simp [leastUpper, List.findIdx_cons, hd]

theorem specEntry_coords_int {ss : List Sample} {t : ℚ}
    (h : leastUpper ss t ≠ 0) :
    ∃ a b : ℤ, (specEntry ss t).x = (a : ℚ) ∧ (specEntry ss t).y = (b : ℚ) := by
  rw [specEntry]
  simp only [if_neg h]
  exact ⟨_, _, rfl, rfl⟩

theorem gridCount_add_mul {t0 dt : ℚ} (hdt : 0 < dt) (m : ℕ) :
    gridCount t0 (t0 + (m : ℚ) * dt) dt = m + 1 := by
  have hm : (0:ℚ) ≤ (m : ℚ) * dt :=
    mul_nonneg (Nat.cast_nonneg m) hdt.le
  rw [gridCount, if_pos (by linarith : t0 ≤ t0 + (m:ℚ)*dt)]
  have hq : (t0 + (m:ℚ)*dt - t0)/dt = (m:ℚ) := by field_simp
  rw [hq, Int.floor_natCast, Int.toNat_natCast]

theorem leastUpper_grid {out : List Sample} {t0 : ℚ} {N : ℕ}
    (hlen : out.length = N)
    (ht : ∀ i, i < N → (out.getD i default).t = t0 + (i : ℚ) * RESAMPLE_DT)
    {k : ℕ} (hk : k < N) :
    leastUpper out (t0 + (k : ℚ) * RESAMPLE_DT) = k := by
  have hdt : (0:ℚ) < RESAMPLE_DT := by norm_num [RESAMPLE_DT]
  have hkl : k < out.length := by omega
  refine (List.findIdx_eq hkl).mpr ⟨?_, ?_⟩
  · have h1 := ht k hk
    rw [List.getD_eq_getElem out default hkl] at h1
    simp [h1]
  · intro j hj
    have hjl : j < out.length := by omega
    have h1 := ht j (by omega)
    rw [List.getD_eq_getElem out default hjl] at h1
    have hlt : t0 + (j:ℚ) * RESAMPLE_DT < t0 + (k:ℚ) * RESAMPLE_DT := by
      have : (j:ℚ) < (k:ℚ) := Nat.cast_lt.mpr hj
      nlinarith
    simp only [h1]
    exact decide_eq_false (by linarith)

/-- The resampler leaves a trace fixed if that trace lies exactly on the
`RESAMPLE_DT` grid starting at a centisecond `t0`, with integer coordinates
everywhere except possibly the first entry — exactly the shape of the
resampler's own output. -/
theorem resample_on_grid_fixed {out : List Sample} {t0 : ℚ} {N : ℕ}
    (hN : 0 < N) (hlen : out.length = N) (hc0 : Centi t0)
    (ht : ∀ i, i < N → (out.getD i default).t = t0 + (i : ℚ) * RESAMPLE_DT)
    (hint : ∀ i, i < N → 0 < i → ∃ a b : ℤ,
      (out.getD i default).x = (a : ℚ) ∧ (out.getD i default).y = (b : ℚ)) :
    resample out = out := by
  have hdt : (0:ℚ) < RESAMPLE_DT := by norm_num [RESAMPLE_DT]
  have hne : out ≠ [] := by
    intro h
    rw [h] at hlen
    simp at hlen
    omega
  have hlenpos : 0 < out.length := by omega
  have hhead : (out.head hne).t = t0 := by
    have h1 := ht 0 hN
    rw [List.getD_eq_getElem out default (by omega)] at h1
    rw [List.head_eq_getElem]
    simpa using h1
  have hlast : (out.getLast hne).t = t0 + ((N - 1 : ℕ) : ℚ) * RESAMPLE_DT := by
    have h1 : out.length - 1 < N := by omega
    have h2 := ht (out.length - 1) h1
    rw [List.getD_eq_getElem out default (by omega)] at h2
    rw [List.getLast_eq_getElem, h2, hlen]
  have hgc : gridCount (out.head hne).t (out.getLast hne).t RESAMPLE_DT = N := by
    rw [hhead, hlast, gridCount_add_mul hdt]
    omega
  rw [resample_eq_grid hne, hgc]
  refine List.ext_getElem (by simp [hlen]) ?_
  intro i h1 h2
  have hiN : i < N := by simpa using h1
  rw [List.getElem_map, List.getElem_range, hhead]
  have hcent : Centi (t0 + (i : ℚ) * RESAMPLE_DT) :=
    centi_add hc0 (centi_nat_mul_dt i)
  rw [emitAt_eq_specEntry hcent]
  have hlu : leastUpper out (t0 + (i : ℚ) * RESAMPLE_DT) = i :=
    leastUpper_grid hlen ht hiN
  rcases Nat.eq_zero_or_pos i with rfl | hipos
  · rw [specEntry, hlu]
    simp only [if_pos rfl]
    have hti := ht 0 hN
    rw [List.getD_eq_getElem out default (by omega)] at hti
    rw [List.getD_eq_getElem out default (by omega)]
    calc ({ t := t0 + ((0:ℕ) : ℚ) * RESAMPLE_DT,
            x := out[0].x, y := out[0].y } : Sample)
        = ⟨out[0].t, out[0].x, out[0].y⟩ := by rw [hti]
      _ = out[0] := sample_eta _
  · rw [specEntry, hlu]
    rw [if_neg (by omega : ¬ i = 0)]
    have hprev : i - 1 < N := by omega
    have ht0 := ht (i - 1) hprev
    have ht1 := ht i hiN
    have hne01 : (out.getD i default).t ≠ (out.getD (i-1) default).t := by
      rw [ht0, ht1]
      have : ((i - 1 : ℕ) : ℚ) < (i : ℚ) := Nat.cast_lt.mpr (by omega)
      intro hcontra
      nlinarith
    simp only [if_pos hne01]
    have hfrac : (t0 + (i : ℚ) * RESAMPLE_DT - (out.getD (i-1) default).t) /
        ((out.getD i default).t - (out.getD (i-1) default).t) = 1 := by
      rw [ht0, ht1]
      have hcast : ((i - 1 : ℕ) : ℚ) = (i : ℚ) - 1 := by
        have : (1:ℕ) ≤ i := hipos
        push_cast [Nat.cast_sub this]
        ring
      rw [hcast]
      have hden : t0 + (i:ℚ) * RESAMPLE_DT - (t0 + ((i:ℚ) - 1) * RESAMPLE_DT) =
          RESAMPLE_DT := by ring
      rw [hden]
      field_simp
    rw [hfrac]
    obtain ⟨a, b, hax, hby⟩ := hint i hiN hipos
    have hxx : (out.getD (i-1) default).x + 1 * ((out.getD i default).x -
        (out.getD (i-1) default).x) = (a : ℚ) := by rw [← hax]; ring
    have hyy : (out.getD (i-1) default).y + 1 * ((out.getD i default).y -
        (out.getD (i-1) default).y) = (b : ℚ) := by rw [← hby]; ring
    rw [hxx, hyy, pyRound_intCast, pyRound_intCast, ← hax, ← hby]
    have hti := ht i hiN
    rw [List.getD_eq_getElem out default (by omega)] at hti
    rw [List.getD_eq_getElem out default (by omega)]
    calc ({ t := t0 + (i : ℚ) * RESAMPLE_DT,
            x := out[i].x, y := out[i].y } : Sample)
        = ⟨out[i].t, out[i].x, out[i].y⟩ := by rw [hti]
      _ = out[i] := sample_eta _

/-- C8 (amended): the resampler is idempotent on its own outputs: for any
sorted input trace on the centisecond grid, resampling the resampled trace
returns it unchanged. (The claim as stated — idempotence on EVERY trace
already on the fixed-dt grid — fails, because the resampler rounds
coordinates to integers; see the counterexample.) -/
theorem resample_resample (ss : List Sample)
    (hs : ss.Pairwise (fun a b => a.t ≤ b.t))
    (hc : ∀ s ∈ ss, Centi s.t) :
    resample (resample ss) = resample ss := by
  cases ss with
  | nil => rfl
  | cons s rest =>
    have hne : (s :: rest) ≠ [] := List.cons_ne_nil s rest
    have hdt : (0:ℚ) < RESAMPLE_DT := by norm_num [RESAMPLE_DT]
    have hle := head_t_le_getLast_t hne hs
    set t0 := ((s :: rest).head hne).t with ht0
    set N := gridCount t0 ((s :: rest).getLast hne).t RESAMPLE_DT with hN0
    have hct0 : Centi t0 := by
      rw [ht0, List.head_cons]
      exact hc s (List.mem_cons_self s rest)
    have hN : 0 < N := by
      rw [hN0, gridCount, if_pos hle]
      omega
    have hout : resample (s :: rest) =
        (List.range N).map
          (fun (k : ℕ) => specEntry (s :: rest) (t0 + (k : ℚ) * RESAMPLE_DT)) := by
      rw [resample_eq_grid hne]
      refine List.map_congr_left (fun k hk => ?_)
      exact emitAt_eq_specEntry (centi_add hct0 (centi_nat_mul_dt k))
    have hlen : (resample (s :: rest)).length = N := by
      rw [hout]
      simp
    have ht : ∀ i, i < N → ((resample (s :: rest)).getD i default).t =
        t0 + (i : ℚ) * RESAMPLE_DT := by
      intro i hi
      have hil : i < (resample (s :: rest)).length := by omega
      rw [List.getD_eq_getElem _ default hil, List.getElem_of_eq hout hil,
        List.getElem_map, List.getElem_range]
      exact specEntry_t _ _
    have hint : ∀ i, i < N → 0 < i → ∃ a b : ℤ,
        ((resample (s :: rest)).getD i default).x = (a : ℚ) ∧
        ((resample (s :: rest)).getD i default).y = (b : ℚ) := by
      intro i hi hipos
      have hil : i < (resample (s :: rest)).length := by omega
      rw [List.getD_eq_getElem _ default hil, List.getElem_of_eq hout hil,
        List.getElem_map, List.getElem_range]
      apply specEntry_coords_int
      apply leastUpper_cons_ne_zero
      rw [ht0, List.head_cons] at *
      have hipos' : (0:ℚ) < (i:ℚ) := by exact_mod_cast hipos
      nlinarith
    exact resample_on_grid_fixed hN hlen hct0 ht hint

/-- Witness for C1: a concrete sorted two-sample trace on the centisecond
grid; the resampler output matches the spec-side resampler and has length
`⌊(t_max - t_min)/dt⌋ + 1 = 3`. -/
theorem resampler_meets_spec_witness :
    resample [⟨0, 1, 2⟩, ⟨1/2, 3, 4⟩] = specResample [⟨0, 1, 2⟩, ⟨1/2, 3, 4⟩] ∧
    ((resample [⟨0, 1, 2⟩, ⟨1/2, 3, 4⟩]).length : ℤ) =
      ⌊((([⟨0, 1, 2⟩, ⟨1/2, 3, 4⟩] : List Sample).getLast
            (List.cons_ne_nil _ _)).t -
          (([⟨0, 1, 2⟩, ⟨1/2, 3, 4⟩] : List Sample).head
            (List.cons_ne_nil _ _)).t) / RESAMPLE_DT⌋ + 1 :=
  resampler_meets_spec [⟨0, 1, 2⟩, ⟨1/2, 3, 4⟩] (List.cons_ne_nil _ _)
    (by with_unfolding_all decide) (by with_unfolding_all decide)

/-- Counterexample for C8 as stated: this trace lies exactly on the 0.25 s
grid (timestamps `0` and `RESAMPLE_DT`), yet resampling changes it — the
second entry's coordinate 1/2 is rounded to the integer 0 — so the resampler
is not idempotent on arbitrary traces that are merely on the grid. -/
theorem resample_changes_on_grid_trace :
    resample [⟨0, 1/2, 0⟩, ⟨RESAMPLE_DT, 1/2, 0⟩] ≠
      [⟨0, 1/2, 0⟩, ⟨RESAMPLE_DT, 1/2, 0⟩] := by
  with_unfolding_all decide

/-- Witness for C8 (amended) at the same concrete trace: one resampling pass
changes it, a second pass leaves the result fixed. -/
theorem resample_resample_witness :
    resample (resample [⟨0, 1/2, 0⟩, ⟨RESAMPLE_DT, 1/2, 0⟩]) =
      resample [⟨0, 1/2, 0⟩, ⟨RESAMPLE_DT, 1/2, 0⟩] :=
  resample_resample [⟨0, 1/2, 0⟩, ⟨RESAMPLE_DT, 1/2, 0⟩]
    (by with_unfolding_all decide) (by with_unfolding_all decide)

/-- Driver display metadata (the entries of the `drivers` dict,
src/generate_static.py:434-440, as read by `compute_insights`). -/
structure DriverInfo where
  abbr : String
  color : String
deriving DecidableEq

/-- An assembled lap record (src/generate_static.py:703-720), restricted to
the fields `compute_insights` reads. `lap_time` and the sector fields are
durations in seconds, `pit_in` a race-relative time, `position` the running
position, `track_status` the coded flag string. -/
structure LapRec where
  driver : String
  lap : Option ℤ
  lap_time : Option ℚ
  sector1 : Option ℚ
  sector2 : Option ℚ
  sector3 : Option ℚ
  compound : String
  pit_in : Option ℚ
  position : Option ℤ
  is_pb : Bool
  track_status : String
deriving DecidableEq

/-- A race-control message, restricted to the fields `compute_insights`
reads. -/
structure RCMsg where
  lap_number : Option ℤ
  message : Option String
  flag : Option String
deriving DecidableEq

/-- An insight event (the dicts built inside `compute_insights`). The three
track-status events carry no `color` key in the source, modelled by
`color = none`. -/
structure Event where
  type : String
  icon : String
  title : String
  detail : String
  driver : Option String
  color : Option String
  priority : ℤ
deriving DecidableEq

/-- Python truthiness of an optional float (`None` and `0.0` are falsy, as in
`if l.get('lap_time')`). -/
def truthyQ : Option ℚ → Bool
  | Option.none => false
  | some q => decide (q ≠ 0)

/-- Python truthiness of an optional int (`None` and `0` are falsy, as in
`if lap.get('position')`). -/
def truthyZ : Option ℤ → Bool
  | Option.none => false
  | some n => decide (n ≠ 0)

def pad2 (n : ℕ) : String := if n < 10 then "0" ++ toString n else toString n

def pad3 (n : ℕ) : String :=
  if n < 10 then "00" ++ toString n
  else if n < 100 then "0" ++ toString n
  else toString n

/-- `fmt_time` (src/generate_static.py:109-116): `None` renders as an
em-dash; otherwise `m = int(seconds // 60)`, `s = seconds % 60`, rendered as
`m:ss.mmm` when `m > 0` and `s.mmm` otherwise. Python's `%.3f` float
formatting rounds half-to-even at three decimals, modelled through `pyRound`
of the milliseconds; the NaN guard of the source has no counterpart since ℚ
has no NaN, and durations are nonnegative in every call site. -/
def fmt_time (seconds : Option ℚ) : String :=
  match seconds with
  | Option.none => "—"
  | some s =>
    let m : ℤ := ⌊s / 60⌋
    let r : ℚ := s - 60 * ⌊s / 60⌋
    let millis : ℕ := (pyRound (r * 1000)).toNat
    if 0 < m then
      toString m ++ ":" ++ pad2 (millis / 1000) ++ "." ++ pad3 (millis % 1000)
    else
      toString (millis / 1000) ++ "." ++ pad3 (millis % 1000)

/-- ASCII upper-casing, modelling `str.upper()` on the (ASCII) race-control
message text. -/
def pyUpper (s : String) : String := s.toUpper

def containsSubAux (needle : List Char) : List Char → Bool
  | [] => decide (needle = [])
  | c :: rest => needle.isPrefixOf (c :: rest) || containsSubAux needle rest

/-- Substring containment: Python's `needle in haystack` on strings. -/
def containsSub (haystack needle : String) : Bool :=
  containsSubAux needle.data haystack.data

/-- `drivers.get(d, {}).get('abbr', d)`. -/
def abbrOf (drivers : String → Option DriverInfo) (d : String) : String :=
  match drivers d with
  | some info => info.abbr
  | Option.none => d

/-- `drivers.get(d, {}).get('color', '#888')`. -/
def colorOf (drivers : String → Option DriverInfo) (d : String) : String :=
  match drivers d with
  | some info => info.color
  | Option.none => "#888"

/-- Python's `min(xs, key=k)`: scan left to right, replacing the current
minimum only on a strictly smaller key, so the first element attaining the
minimal key wins. `none` on an empty list (the source guards every call). -/
def pyMinBy (k : LapRec → ℚ) : List LapRec → Option LapRec
  | [] => Option.none
  | l :: rest => some (rest.foldl (fun m x => if k x < k m then x else m) l)

/-- The track-status scan (src/generate_static.py:144-158): safety car from
race-control text or lap status `'4'`, else virtual safety car from text or
`'5'`, else yellow from flags or `'2'`/`'3'`; at most one event. -/
def statusEvents (rcs : List RCMsg) (group : List LapRec) : List Event :=
  let has_sc := rcs.any (fun rc =>
    containsSub (pyUpper ((rc.message).getD "")) "SAFETY CAR" &&
    !containsSub (pyUpper ((rc.message).getD "")) "VIRTUAL")
  let has_vsc := rcs.any (fun rc =>
    containsSub (pyUpper ((rc.message).getD "")) "VIRTUAL SAFETY CAR")
  let has_yellow := rcs.any (fun rc =>
    decide (rc.flag = some "YELLOW" ∨ rc.flag = some "DOUBLE YELLOW"))
  if has_sc || group.any (fun l => decide (l.track_status = "4")) then
    [⟨"safety_car", "🚗", "Safety Car deployed", "", Option.none, Option.none, 10⟩]
  else if has_vsc || group.any (fun l => decide (l.track_status = "5")) then
    [⟨"vsc", "🟡", "Virtual Safety Car", "", Option.none, Option.none, 9⟩]
  else if has_yellow || group.any (fun l => decide (l.track_status = "2")) ||
      group.any (fun l => decide (l.track_status = "3")) then
    [⟨"yellow", "🟡", "Yellow Flag", "", Option.none, Option.none, 8⟩]
  else []

/-- `valid = [l for l in lap_group if l.get('lap_time')]`
(src/generate_static.py:160). -/
def validLaps (group : List LapRec) : List LapRec :=
  group.filter (fun l => truthyQ l.lap_time)

/-- The fastest-lap event (src/generate_static.py:160-170). -/
def fastestEvents (drivers : String → Option DriverInfo)
    (group : List LapRec) : List Event :=
  match pyMinBy (fun l => l.lap_time.getD 0) (validLaps group) with
  | Option.none => []
  | some fastest =>
    [⟨"fastest_lap", "⚡", abbrOf drivers fastest.driver ++ " fastest",
      fmt_time fastest.lap_time, some fastest.driver,
      some (colorOf drivers fastest.driver), 7⟩]

/-- Personal-best events (src/generate_static.py:172-181). -/
def pbEvents (drivers : String → Option DriverInfo)
    (group : List LapRec) : List Event :=
  (group.filter (fun l => l.is_pb && truthyQ l.lap_time)).map (fun l =>
    ⟨"personal_best", "🟣", abbrOf drivers l.driver ++ " personal best",
      fmt_time l.lap_time, some l.driver, some (colorOf drivers l.driver), 6⟩)

/-- Pit-stop events (src/generate_static.py:183-193). -/
def pitEvents (drivers : String → Option DriverInfo)
    (group : List LapRec) : List Event :=
  (group.filter (fun l => l.pit_in.isSome)).map (fun l =>
    ⟨"pit_stop", "🔧", abbrOf drivers l.driver ++ " pits",
      "→ " ++ l.compound, some l.driver, some (colorOf drivers l.driver), 5⟩)

/-- Insertion-ordered dict update: `cur_positions[driver] = position`
replaces an existing key in place and appends a new key. -/
def upsert (k : String) (v : ℤ) : List (String × ℤ) → List (String × ℤ)
  | [] => [(k, v)]
  | (k', v') :: rest =>
    if k' = k then (k, v) :: rest else (k', v') :: upsert k v rest

/-- `cur_positions` (src/generate_static.py:195-198): the positions dict of
this lap group, keyed by driver, built from records with a truthy position
and a truthy driver string. -/
def curPositions (group : List LapRec) : List (String × ℤ) :=
  group.foldl
    (fun acc l =>
      if truthyZ l.position && decide (l.driver ≠ "") then
        upsert l.driver (l.position.getD 0) acc
      else acc)
    []

/-- Position-change events (src/generate_static.py:200-213): for each driver
in this lap's positions dict who also appears in the previous lap's dict,
emit an event when the absolute delta is at least 2. -/
def positionChangeEvents (drivers : String → Option DriverInfo)
    (prev cur : List (String × ℤ)) : List Event :=
  cur.filterMap (fun dc =>
    match prev.lookup dc.1 with
    | Option.none => Option.none
    | some pp =>
      let delta := pp - dc.2
      if 2 ≤ |delta| then
        let direction := if 0 < delta then "▲" else "▼"
        some ⟨"position_change", direction,
          abbrOf drivers dc.1 ++ " " ++ direction ++ " " ++
            toString |delta| ++ " positions",
          "P" ++ toString dc.2, some dc.1, some (colorOf drivers dc.1), 4⟩
      else Option.none)

/-- One best-sector event (src/generate_static.py:218-229) for a single
sector name/field. -/
def sectorEventsFor (drivers : String → Option DriverInfo)
    (group : List LapRec) (name : String) (key : LapRec → Option ℚ) :
    List Event :=
  match pyMinBy (fun l => (key l).getD 0)
      (group.filter (fun l => truthyQ (key l))) with
  | Option.none => []
  | some best =>
    [⟨"best_sector", "📍", abbrOf drivers best.driver ++ " best " ++ name,
      fmt_time (key best), some best.driver,
      some (colorOf drivers best.driver), 3⟩]

/-- The whole best-sector block (src/generate_static.py:217-229). Note the
source guards the block with `if valid:` — no sector events are emitted for
a lap group in which no record has a truthy overall `lap_time`. -/
def sectorEvents (drivers : String → Option DriverInfo)
    (group : List LapRec) : List Event :=
  if validLaps group = [] then []
  else
    sectorEventsFor drivers group "S1" LapRec.sector1 ++
    sectorEventsFor drivers group "S2" LapRec.sector2 ++
    sectorEventsFor drivers group "S3" LapRec.sector3

/-- All events of one lap in emission order (steps 2-7 of the spec;
src/generate_static.py:142-229), given the race-control messages of this lap
and the previous lap's positions dict. -/
def lapEvents (drivers : String → Option DriverInfo) (rcs : List RCMsg)
    (prev : List (String × ℤ)) (group : List LapRec) : List Event :=
  statusEvents rcs group ++ fastestEvents drivers group ++
  pbEvents drivers group ++ pitEvents drivers group ++
  positionChangeEvents drivers prev (curPositions group) ++
  sectorEvents drivers group

/-- Priority comparison used for the per-lap sort: `a` sorts no later than
`b` when `a`'s priority is at least `b`'s. -/
def prioGe (a b : Event) : Prop := b.priority ≤ a.priority

instance : DecidableRel prioGe := fun a b => inferInstanceAs (Decidable (_ ≤ _))

instance : IsTotal Event prioGe := ⟨fun a b => le_total b.priority a.priority⟩

instance : IsTrans Event prioGe := ⟨fun _ _ _ h1 h2 => le_trans h2 h1⟩

/-- `events.sort(key=lambda e: e['priority'], reverse=True)`
(src/generate_static.py:231): Python's sort is a stable sort by descending
priority; any stable sort over the same total preorder yields the same list,
so it is modelled by insertion sort with `prioGe` (which keeps
earlier-emitted events first among equal priorities). -/
def sortEventsDesc (events : List Event) : List Event :=
  events.insertionSort prioGe

/-- The stored per-lap list: sorted, truncated to the top 8
(src/generate_static.py:231-232). -/
def lapInsights (drivers : String → Option DriverInfo) (rcs : List RCMsg)
    (prev : List (String × ℤ)) (group : List LapRec) : List Event :=
  (sortEventsDesc (lapEvents drivers rcs prev group)).take 8

/-- `sorted(by_lap.keys())`: the distinct lap numbers carrying a record, in
ascending order. -/
def lapKeys (laps : List LapRec) : List ℤ :=
  ((laps.filterMap LapRec.lap).dedup).insertionSort (· ≤ ·)

/-- `by_lap[ln]`: the records of lap `ln` in input order. -/
def groupForLap (laps : List LapRec) (ln : ℤ) : List LapRec :=
  laps.filter (fun l => decide (l.lap = some ln))

/-- `rc_by_lap.get(ln, [])`: the race-control messages of lap `ln`. -/
def rcForLap (rcs : List RCMsg) (ln : ℤ) : List RCMsg :=
  rcs.filter (fun rc => decide (rc.lap_number = some ln))

/-- The fold over ascending lap numbers, carrying `prev_positions`, which is
replaced wholesale by the current lap's positions dict after each lap
(src/generate_static.py:140-232, in particular line 215). -/
def insightsGo (laps : List LapRec) (drivers : String → Option DriverInfo)
    (rcs : List RCMsg) : List ℤ → List (String × ℤ) → List (ℤ × List Event)
  | [], _ => []
  | ln :: rest, prev =>
    let group := groupForLap laps ln
    (ln, lapInsights drivers (rcForLap rcs ln) prev group) ::
      insightsGo laps drivers rcs rest (curPositions group)

/-- `compute_insights` (src/generate_static.py:121-234). The near-identical
`compute_insights` of src/server.py:288-410 differs only in deriving track
status solely from the coded `track_status` values. Keys are the lap
numbers; the source stringifies them (`insights[str(ln)]`) only as a JSON
artifact detail. `total_laps` is accepted and unused, exactly as in the
source. -/
def compute_insights (laps : List LapRec)
    (drivers : String → Option DriverInfo) (total_laps : ℤ)
    (rcs : List RCMsg) : List (ℤ × List Event) :=
  insightsGo laps drivers rcs (lapKeys laps) []

/-- Counterexample for C4 as stated: a lap group whose only record has
sector 1 recorded (30.0 s) but no overall `lap_time`. The claim would
require a `best_sector` event for lap 5; the code's `if valid:` guard skips
the whole sector scan, and the emitted list for lap 5 is empty. -/
theorem best_sector_skipped_without_lap_time :
    compute_insights
      [⟨"1", some 5, Option.none, some 30, Option.none, Option.none,
        "SOFT", Option.none, Option.none, false, "1"⟩]
      (fun _ => Option.none) 5 [] = [(5, [])] := by
  with_unfolding_all decide

/-- C4 (amended): for each sector split, if at least one record of the lap
group has a truthy overall `lap_time` (the source gates the sector scan on
`if valid:`) and the sector scan finds a minimal record `best`, then a
`best_sector` event of priority 3 naming `best`'s driver is emitted into the
lap's event list (before sorting/truncation). -/
theorem best_sector_emitted (drivers : String → Option DriverInfo)
    (rcs : List RCMsg) (prev : List (String × ℤ)) (group : List LapRec)
    (name : String) (key : LapRec → Option ℚ)
    (hname : (name, key) = ("S1", LapRec.sector1) ∨
      (name, key) = ("S2", LapRec.sector2) ∨
      (name, key) = ("S3", LapRec.sector3))
    (hvalid : validLaps group ≠ [])
    (best : LapRec)
    (hbest : pyMinBy (fun l => (key l).getD 0)
      (group.filter (fun l => truthyQ (key l))) = some best) :
    (⟨"best_sector", "📍", abbrOf drivers best.driver ++ " best " ++ name,
      fmt_time (key best), some best.driver,
      some (colorOf drivers best.driver), 3⟩ : Event) ∈
      lapEvents drivers rcs prev group := by
  have hfor : (⟨"best_sector", "📍",
      abbrOf drivers best.driver ++ " best " ++ name,
      fmt_time (key best), some best.driver,
      some (colorOf drivers best.driver), 3⟩ : Event) ∈
      sectorEventsFor drivers group name key := by
    simp only [sectorEventsFor, hbest]
    exact List.mem_singleton.mpr rfl
  have hsec : (⟨"best_sector", "📍",
      abbrOf drivers best.driver ++ " best " ++ name,
      fmt_time (key best), some best.driver,
      some (colorOf drivers best.driver), 3⟩ : Event) ∈
      sectorEvents drivers group := by
    rw [sectorEvents, if_neg hvalid]
    rcases hname with h | h | h <;>
      (injection h with h1 h2; subst h1; subst h2)
    · exact List.mem_append_left _ (List.mem_append_left _ hfor)
    · exact List.mem_append_left _ (List.mem_append_right _ hfor)
    · exact List.mem_append_right _ hfor
  rw [lapEvents]
  exact List.mem_append_right _ hsec

/-- Witness for C4 (amended) at a concrete one-record lap group with a valid
lap time (90 s) and sector 1 recorded (30 s). -/
theorem best_sector_emitted_witness :
    (⟨"best_sector", "📍",
      abbrOf (fun _ => Option.none)
        (⟨"1", some 1, some 90, some 30, Option.none, Option.none, "SOFT",
          Option.none, Option.none, false, "1"⟩ : LapRec).driver ++
        " best " ++ "S1",
      fmt_time (LapRec.sector1
        ⟨"1", some 1, some 90, some 30, Option.none, Option.none, "SOFT",
          Option.none, Option.none, false, "1"⟩),
      some (⟨"1", some 1, some 90, some 30, Option.none, Option.none, "SOFT",
          Option.none, Option.none, false, "1"⟩ : LapRec).driver,
      some (colorOf (fun _ => Option.none)
        (⟨"1", some 1, some 90, some 30, Option.none, Option.none, "SOFT",
          Option.none, Option.none, false, "1"⟩ : LapRec).driver),
      3⟩ : Event) ∈
      lapEvents (fun _ => Option.none) [] []
        [⟨"1", some 1, some 90, some 30, Option.none, Option.none, "SOFT",
          Option.none, Option.none, false, "1"⟩] :=
  best_sector_emitted (fun _ => Option.none) [] []
    [⟨"1", some 1, some 90, some 30, Option.none, Option.none, "SOFT",
      Option.none, Option.none, false, "1"⟩]
    "S1" LapRec.sector1 (Or.inl rfl)
    (by with_unfolding_all decide)
    ⟨"1", some 1, some 90, some 30, Option.none, Option.none, "SOFT",
      Option.none, Option.none, false, "1"⟩
    (by with_unfolding_all decide)

theorem pairwise_filter_eq_prio (l : List Event) (p : ℤ) :
    (l.filter (fun e => decide (e.priority = p))).Pairwise prioGe := by
  induction l with
  | nil => simp
  | cons a l ih =>
    by_cases h : a.priority = p
    · rw [List.filter_cons_of_pos (by simpa using h)]
      refine List.Pairwise.cons ?_ ih
      intro b hb
      have hb' : b.priority = p := by
        have := List.of_mem_filter hb
        simpa using this
      rw [prioGe, hb', h]
    · rw [List.filter_cons_of_neg (by simpa using h)]
      exact ih

/-- Stability of the per-lap sort: within each priority class, the sorted
list keeps exactly the emission-order elements. -/
theorem filter_sortEventsDesc (l : List Event) (p : ℤ) :
    (sortEventsDesc l).filter (fun e => decide (e.priority = p)) =
      l.filter (fun e => decide (e.priority = p)) := by
  have hsub : List.Sublist (l.filter (fun e => decide (e.priority = p)))
      (sortEventsDesc l) :=
    List.sublist_insertionSort (pairwise_filter_eq_prio l p)
      (List.filter_sublist l)
  have hsub2 := hsub.filter (fun e => decide (e.priority = p))
  rw [List.filter_filter] at hsub2
  have hperm : List.Perm
      ((sortEventsDesc l).filter (fun e => decide (e.priority = p)))
      (l.filter (fun e => decide (e.priority = p))) :=
    (List.perm_insertionSort prioGe l).filter _
  have hsimp : (fun (e : Event) => decide (e.priority = p) &&
      decide (e.priority = p)) = fun e => decide (e.priority = p) := by
    funext e
    exact Bool.and_self _
  rw [hsimp] at hsub2
  exact (hsub2.eq_of_length hperm.length_eq.symm).symm

theorem insightsGo_mem {laps : List LapRec}
    {drivers : String → Option DriverInfo} {rcs : List RCMsg} :
    ∀ (ks : List ℤ) (prev : List (String × ℤ)) {ln : ℤ} {es : List Event},
      (ln, es) ∈ insightsGo laps drivers rcs ks prev →
      ∃ prev2, es = lapInsights drivers (rcForLap rcs ln) prev2
        (groupForLap laps ln) := by
  intro ks
  induction ks with
  | nil =>
    intro prev ln es h
    simp [insightsGo] at h
  | cons k rest ih =>
    intro prev ln es h
    rw [insightsGo] at h
    rcases List.mem_cons.mp h with heq | htail
    · injection heq with h1 h2
      subst h1
      exact ⟨prev, h2⟩
    · exact ih _ htail

/-- C5: every stored per-lap insight list has at most 8 events, is sorted by
priority descending, and is the 8-truncation of a stable sort of the
emission-order event list: within each priority class it is a prefix of the
events in emission (discovery) order. -/
theorem insights_sorted_truncated (laps : List LapRec)
    (drivers : String → Option DriverInfo) (total : ℤ) (rcs : List RCMsg)
    {ln : ℤ} {es : List Event}
    (h : (ln, es) ∈ compute_insights laps drivers total rcs) :
    es.length ≤ 8 ∧ es.Pairwise prioGe ∧
      ∃ prev,
        es = (sortEventsDesc (lapEvents drivers (rcForLap rcs ln) prev
            (groupForLap laps ln))).take 8 ∧
        ∀ p : ℤ, es.filter (fun e => decide (e.priority = p)) <+:
          (lapEvents drivers (rcForLap rcs ln) prev
            (groupForLap laps ln)).filter
              (fun e => decide (e.priority = p)) := by
  rw [compute_insights] at h
  obtain ⟨prev, hes⟩ := insightsGo_mem _ _ h
  rw [lapInsights] at hes
  refine ⟨?_, ?_, prev, hes, ?_⟩
  · rw [hes]
    exact List.length_take_le _ _
  · rw [hes]
    exact List.Pairwise.sublist (List.take_sublist _ _)
      (List.sorted_insertionSort prioGe _)
  · intro p
    have h1 : es.filter (fun e => decide (e.priority = p)) <+:
        (sortEventsDesc (lapEvents drivers (rcForLap rcs ln) prev
          (groupForLap laps ln))).filter (fun e => decide (e.priority = p)) := by
      rw [hes]
      refine ⟨((sortEventsDesc (lapEvents drivers (rcForLap rcs ln) prev
        (groupForLap laps ln))).drop 8).filter
          (fun e => decide (e.priority = p)), ?_⟩
      rw [← List.filter_append, List.take_append_drop]
    rw [filter_sortEventsDesc] at h1
    exact h1

set_option maxRecDepth 16000 in
/-- Witness for C5 at a concrete one-driver lap producing a single pit-stop
event. -/
theorem insights_sorted_truncated_witness :
    ([⟨"pit_stop", "🔧", "1 pits", "→ SOFT", some "1", some "#888", 5⟩]
        : List Event).length ≤ 8 ∧
    ([⟨"pit_stop", "🔧", "1 pits", "→ SOFT", some "1", some "#888", 5⟩]
        : List Event).Pairwise prioGe ∧
    ∃ prev,
      ([⟨"pit_stop", "🔧", "1 pits", "→ SOFT", some "1", some "#888", 5⟩]
          : List Event) =
        (sortEventsDesc (lapEvents (fun _ => Option.none) (rcForLap [] 1) prev
          (groupForLap [⟨"1", some 1, Option.none, Option.none, Option.none,
            Option.none, "SOFT", some 100, Option.none, false, "1"⟩] 1))).take 8 ∧
      ∀ p : ℤ,
        (([⟨"pit_stop", "🔧", "1 pits", "→ SOFT", some "1", some "#888", 5⟩]
            : List Event).filter (fun e => decide (e.priority = p))) <+:
          ((lapEvents (fun _ => Option.none) (rcForLap [] 1) prev
            (groupForLap [⟨"1", some 1, Option.none, Option.none, Option.none,
              Option.none, "SOFT", some 100, Option.none, false, "1"⟩] 1)).filter
                (fun e => decide (e.priority = p))) :=
  insights_sorted_truncated
    [⟨"1", some 1, Option.none, Option.none, Option.none, Option.none, "SOFT",
      some 100, Option.none, false, "1"⟩]
    (fun _ => Option.none) 1 []
    (by decide)

theorem lookup_upsert_ne {k d : String} (hne : k ≠ d) (v : ℤ) :
    ∀ acc : List (String × ℤ), (upsert k v acc).lookup d = acc.lookup d := by
  have hbe : (d == k) = false := beq_eq_false_iff_ne.mpr (Ne.symm hne)
  intro acc
  induction acc with
  | nil => simp [upsert, List.lookup, hbe]
  | cons kv rest ih =>
    obtain ⟨k', v'⟩ := kv
    rw [upsert]
    by_cases h : k' = k
    · subst h
      simp only [if_pos rfl]
      simp [List.lookup, hbe]
    · simp only [if_neg h]
      simp only [List.lookup]
      cases hbe2 : (d == k') <;> simp [hbe2, ih]

theorem curPositions_fold_lookup {d : String} :
    ∀ (group : List LapRec) (acc : List (String × ℤ)),
      (∀ l ∈ group, l.driver = d → truthyZ l.position = false) →
      (group.foldl
        (fun acc l =>
          if truthyZ l.position && decide (l.driver ≠ "") then
            upsert l.driver (l.position.getD 0) acc
          else acc) acc).lookup d = acc.lookup d := by
  intro group
  induction group with
  | nil => intro acc h; rfl
  | cons l rest ih =>
    intro acc h
    rw [List.foldl_cons]
    by_cases hc : (truthyZ l.position && decide (l.driver ≠ "")) = true
    · rw [if_pos hc]
      have hld : l.driver ≠ d := by
        intro heq
        have := h l (List.mem_cons_self l rest) heq
        rw [this] at hc
        simp at hc
      rw [ih _ (fun x hx => h x (List.mem_cons_of_mem l hx)),
        lookup_upsert_ne hld]
    · rw [if_neg hc]
      exact ih _ (fun x hx => h x (List.mem_cons_of_mem l hx))

theorem curPositions_lookup_none {d : String} {group : List LapRec}
    (h : ∀ l ∈ group, l.driver = d → truthyZ l.position = false) :
    (curPositions group).lookup d = Option.none := by
  rw [curPositions, curPositions_fold_lookup group [] h]
  rfl

theorem insightsGo_key_mem {laps : List LapRec}
    {drivers : String → Option DriverInfo} {rcs : List RCMsg} :
    ∀ (ks : List ℤ) (prev : List (String × ℤ)) {ln : ℤ} {es : List Event},
      (ln, es) ∈ insightsGo laps drivers rcs ks prev → ln ∈ ks := by
  intro ks
  induction ks with
  | nil => intro prev ln es h; simp [insightsGo] at h
  | cons k rest ih =>
    intro prev ln es h
    rw [insightsGo] at h
    rcases List.mem_cons.mp h with heq | htail
    · injection heq with h1 _
      exact h1 ▸ List.mem_cons_self k rest
    · exact List.mem_cons_of_mem k (ih _ htail)

theorem insightsGo_append (laps : List LapRec)
    (drivers : String → Option DriverInfo) (rcs : List RCMsg) :
    ∀ (l1 l2 : List ℤ) (prev : List (String × ℤ)),
      insightsGo laps drivers rcs (l1 ++ l2) prev =
        insightsGo laps drivers rcs l1 prev ++
        insightsGo laps drivers rcs l2
          (l1.foldl (fun _ k => curPositions (groupForLap laps k)) prev) := by
  intro l1
  induction l1 with
  | nil => intro l2 prev; rfl
  | cons k rest ih =>
    intro l2 prev
    rw [List.cons_append, insightsGo, insightsGo, ih, List.foldl_cons,
      List.cons_append]

theorem lapKeys_sorted_lt (laps : List LapRec) :
    (lapKeys laps).Pairwise (fun a b => a < b) := by
  have hperm : List.Perm (lapKeys laps) (laps.filterMap LapRec.lap).dedup :=
    List.perm_insertionSort _ _
  have hnodup : (lapKeys laps).Nodup :=
    hperm.nodup_iff.mpr (List.nodup_dedup _)
  have hle : (lapKeys laps).Pairwise (fun a b => a ≤ b) :=
    List.sorted_insertionSort _ _
  exact (hle.and hnodup).imp (fun h => lt_of_le_of_ne h.1 h.2)

theorem lapKeys_nodup (laps : List LapRec) : (lapKeys laps).Nodup :=
  (List.perm_insertionSort _ _).nodup_iff.mpr (List.nodup_dedup _)

theorem adjacent_in_strict_sorted :
    ∀ (l : List ℤ), l.Pairwise (fun a b => a < b) →
      ∀ N : ℤ, N ∈ l → N + 1 ∈ l →
      ∃ l1 l2, l = l1 ++ N :: (N + 1) :: l2 := by
  intro l
  induction l with
  | nil =>
    intro _ N h
    simp at h
  | cons x xs ih =>
    intro hp N hN hN1
    have hhead := (List.pairwise_cons.mp hp).1
    have htail := (List.pairwise_cons.mp hp).2
    rcases List.mem_cons.mp hN with rfl | hNtail
    · have hN1tail : N + 1 ∈ xs := by
        rcases List.mem_cons.mp hN1 with heq | h
        · omega
        · exact h
      cases xs with
      | nil => simp at hN1tail
      | cons y ys =>
        have hy : N < y := hhead y (List.mem_cons_self y ys)
        have hyeq : y = N + 1 := by
          rcases List.mem_cons.mp hN1tail with heq | hmem
          · omega
          · have := (List.pairwise_cons.mp htail).1 (N + 1) hmem
            omega
        exact ⟨[], ys, by rw [hyeq]; rfl⟩
    · have hN1tail : N + 1 ∈ xs := by
        rcases List.mem_cons.mp hN1 with heq | h
        · subst heq
          have := hhead N hNtail
          omega
        · exact h
      obtain ⟨l1, l2, hsplit⟩ := ih htail N hNtail hN1tail
      exact ⟨x :: l1, l2, by rw [List.cons_append, hsplit]⟩

theorem statusEvents_type {rcs : List RCMsg} {group : List LapRec} {e : Event}
    (h : e ∈ statusEvents rcs group) : e.type ≠ "position_change" := by
  simp only [statusEvents] at h
  split_ifs at h with h1 h2 h3
  · rw [List.mem_singleton.mp h]; decide
  · rw [List.mem_singleton.mp h]; decide
  · rw [List.mem_singleton.mp h]; decide
  · simp at h

theorem fastestEvents_type {drivers : String → Option DriverInfo}
    {group : List LapRec} {e : Event} (h : e ∈ fastestEvents drivers group) :
    e.type ≠ "position_change" := by
  rw [fastestEvents] at h
  rcases hm : pyMinBy (fun l => l.lap_time.getD 0) (validLaps group) with _ | fastest
  · rw [hm] at h; simp at h
  · rw [hm] at h
    rw [List.mem_singleton.mp h]
    intro hc
    simp at hc

theorem pbEvents_type {drivers : String → Option DriverInfo}
    {group : List LapRec} {e : Event} (h : e ∈ pbEvents drivers group) :
    e.type ≠ "position_change" := by
  rw [pbEvents] at h
  obtain ⟨l, _, rfl⟩ := List.mem_map.mp h
  intro hc
  simp at hc

theorem pitEvents_type {drivers : String → Option DriverInfo}
    {group : List LapRec} {e : Event} (h : e ∈ pitEvents drivers group) :
    e.type ≠ "position_change" := by
  rw [pitEvents] at h
  obtain ⟨l, _, rfl⟩ := List.mem_map.mp h
  intro hc
  simp at hc

theorem sectorEventsFor_type {drivers : String → Option DriverInfo}
    {group : List LapRec} {name : String} {key : LapRec → Option ℚ} {e : Event}
    (h : e ∈ sectorEventsFor drivers group name key) :
    e.type ≠ "position_change" := by
  rw [sectorEventsFor] at h
  rcases hm : pyMinBy (fun l => (key l).getD 0)
      (group.filter (fun l => truthyQ (key l))) with _ | best
  · rw [hm] at h; simp at h
  · rw [hm] at h
    rw [List.mem_singleton.mp h]
    intro hc
    simp at hc

theorem sectorEvents_type {drivers : String → Option DriverInfo}
    {group : List LapRec} {e : Event} (h : e ∈ sectorEvents drivers group) :
    e.type ≠ "position_change" := by
  rw [sectorEvents] at h
  split_ifs at h
  · simp at h
  · rcases List.mem_append.mp h with h12 | h3
    · rcases List.mem_append.mp h12 with h1 | h2
      · exact sectorEventsFor_type h1
      · exact sectorEventsFor_type h2
    · exact sectorEventsFor_type h3

theorem positionChangeEvents_driver {drivers : String → Option DriverInfo}
    {prev cur : List (String × ℤ)} {e : Event}
    (h : e ∈ positionChangeEvents drivers prev cur) :
    ∃ dd pp, prev.lookup dd = some pp ∧ e.driver = some dd := by
  rw [positionChangeEvents] at h
  obtain ⟨dc, hdc, hfe⟩ := List.mem_filterMap.mp h
  rcases hl : prev.lookup dc.1 with _ | pp
  · rw [hl] at hfe
    simp at hfe
  · rw [hl] at hfe
    simp only at hfe
    by_cases habs : 2 ≤ |pp - dc.2|
    · rw [if_pos habs] at hfe
      refine ⟨dc.1, pp, hl, ?_⟩
      have := Option.some.inj hfe
      rw [← this]
    · rw [if_neg habs] at hfe
      simp at hfe

theorem lapEvents_position_change {drivers : String → Option DriverInfo}
    {rcs : List RCMsg} {prev : List (String × ℤ)} {group : List LapRec}
    {e : Event} (h : e ∈ lapEvents drivers rcs prev group)
    (ht : e.type = "position_change") :
    ∃ dd pp, prev.lookup dd = some pp ∧ e.driver = some dd := by
  rw [lapEvents] at h
  rcases List.mem_append.mp h with h5 | hsec
  · rcases List.mem_append.mp h5 with h4 | hpc
    · rcases List.mem_append.mp h4 with h3 | hpit
      · rcases List.mem_append.mp h3 with h2 | hpb
        · rcases List.mem_append.mp h2 with hst | hfa
          · exact absurd ht (statusEvents_type hst)
          · exact absurd ht (fastestEvents_type hfa)
        · exact absurd ht (pbEvents_type hpb)
      · exact absurd ht (pitEvents_type hpit)
    · exact positionChangeEvents_driver hpc
  · exact absurd ht (sectorEvents_type hsec)

theorem mem_lapInsights {drivers : String → Option DriverInfo}
    {rcs : List RCMsg} {prev : List (String × ℤ)} {group : List LapRec}
    {e : Event} (h : e ∈ lapInsights drivers rcs prev group) :
    e ∈ lapEvents drivers rcs prev group := by
  rw [lapInsights] at h
  exact (List.perm_insertionSort prioGe _).subset (List.take_subset _ _ h)

/-- C10: the previous-lap position state is replaced wholesale by the current
lap's recorded positions after each processed lap: if lap `N` occurs in the
data and driver `d` has no record with a truthy position on lap `N`, then no
`position_change` event for `d` can appear in lap `N + 1`'s insight list —
regardless of `d`'s positions on earlier and later laps. -/
theorem no_position_change_without_prev_lap
    (laps : List LapRec) (drivers : String → Option DriverInfo)
    (total : ℤ) (rcs : List RCMsg) (N : ℤ) (d : String)
    (hN : N ∈ lapKeys laps)
    (hnone : ∀ l ∈ laps, l.lap = some N → l.driver = d →
      truthyZ l.position = false)
    {es : List Event}
    (hmem : (N + 1, es) ∈ compute_insights laps drivers total rcs) :
    ∀ e ∈ es, e.type = "position_change" → e.driver ≠ some d := by
  intro e he htype hed
  rw [compute_insights] at hmem
  have hN1 : N + 1 ∈ lapKeys laps := insightsGo_key_mem _ _ hmem
  obtain ⟨l1, l2, hsplit⟩ :=
    adjacent_in_strict_sorted (lapKeys laps) (lapKeys_sorted_lt laps) N hN hN1
  have hnodup := lapKeys_nodup laps
  rw [hsplit] at hmem hnodup
  rw [insightsGo_append] at hmem
  simp only [insightsGo] at hmem
  rcases List.mem_append.mp hmem with hA | hB
  · have hkey : N + 1 ∈ l1 := insightsGo_key_mem _ _ hA
    have hdisj := List.disjoint_of_nodup_append hnodup
    exact hdisj hkey (List.mem_cons_of_mem _ (List.mem_cons_self _ _))
  · rcases List.mem_cons.mp hB with hEq1 | hB2
    · injection hEq1 with h1 _
      omega
    · rcases List.mem_cons.mp hB2 with hEq2 | hB3
      · injection hEq2 with _ h2
        subst h2
        have hlap : e ∈ lapEvents drivers (rcForLap rcs (N + 1))
            (curPositions (groupForLap laps N)) (groupForLap laps (N + 1)) :=
          mem_lapInsights he
        obtain ⟨dd, pp, hlook, hdrv⟩ := lapEvents_position_change hlap htype
        rw [hdrv] at hed
        have hdd : dd = d := Option.some.inj hed
        subst hdd
        have hlooknone :
            (curPositions (groupForLap laps N)).lookup dd = Option.none := by
          apply curPositions_lookup_none
          intro l hl hld
          have hlmem : l ∈ laps := List.mem_of_mem_filter hl
          have hlap2 : l.lap = some N := by
            have := List.of_mem_filter hl
            simpa using this
          exact hnone l hlmem hlap2 hld
        rw [hlooknone] at hlook
        exact Option.noConfusion hlook
      · have hkey : N + 1 ∈ l2 := insightsGo_key_mem _ _ hB3
        have hright : (N :: (N + 1) :: l2).Nodup :=
          List.Nodup.of_append_right hnodup
        have := (List.nodup_cons.mp (List.nodup_cons.mp hright).2).1
        exact this hkey

set_option maxRecDepth 16000 in
/-- Witness for C10: driver 7 has positions on laps 1 and 3 (P5 then P1, a
change of 4) but only a position-less record on lap 2; driver 8 gains two
places from lap 2 to lap 3, so lap 3's insight list is exactly the one
position-change event for driver 8 — and that event is not driver 7's. -/
theorem no_position_change_without_prev_lap_witness :
    (⟨"position_change", "▲", "8 ▲ 2 positions", "P4", some "8", some "#888",
        4⟩ : Event).driver ≠ some "7" :=
  @no_position_change_without_prev_lap
    [⟨"7", some 1, Option.none, Option.none, Option.none, Option.none, "SOFT",
        Option.none, some 5, false, "1"⟩,
      ⟨"8", some 2, Option.none, Option.none, Option.none, Option.none, "SOFT",
        Option.none, some 6, false, "1"⟩,
      ⟨"7", some 2, Option.none, Option.none, Option.none, Option.none, "SOFT",
        Option.none, Option.none, false, "1"⟩,
      ⟨"7", some 3, Option.none, Option.none, Option.none, Option.none, "SOFT",
        Option.none, some 1, false, "1"⟩,
      ⟨"8", some 3, Option.none, Option.none, Option.none, Option.none, "SOFT",
        Option.none, some 4, false, "1"⟩]
    (fun _ => Option.none) 3 [] 2 "7"
    (by decide) (by decide)
    [⟨"position_change", "▲", "8 ▲ 2 positions", "P4", some "8", some "#888", 4⟩]
    (by decide)
    ⟨"position_change", "▲", "8 ▲ 2 positions", "P4", some "8", some "#888", 4⟩
    (by decide) (by decide)

/-- A pit-stop record, restricted to the fields `extract_pit_lane_path`
reads: `driver_number`, `date` (modelled as race-relative seconds `t`) and
`lane_duration`; `none` models an absent `lane_duration` key, which
`pit.get('lane_duration', 30)` defaults to 30. -/
structure PitRec where
  driver_number : ℤ
  t : ℚ
  lane_duration : Option ℚ
deriving DecidableEq

/-- The squared deviation threshold. The source compares
`sqrt(min of squared distances) > 150`; over nonnegative values this is
equivalent to comparing the squared minimum against `150² = 22500`, which
keeps the model inside ℚ. -/
def DEVIATION_THRESHOLD_SQ : ℚ := 22500

/-- `min_dist_to_track` squared (src/generate_static.py:314-320): fold the
squared distances keeping the minimum, `none` standing for the initial
`float('inf')`. -/
def minDistSqToTrack (px py : ℚ) (pts : List (ℚ × ℚ)) : Option ℚ :=
  pts.foldl
    (fun best q =>
      let dsq := (px - q.1)^2 + (py - q.2)^2
      match best with
      | Option.none => some dsq
      | some b => if dsq < b then some dsq else some b)
    Option.none

/-- `math.sqrt(best) > DEVIATION_THRESHOLD` of the source, squared. An empty
track list leaves `best = inf`, and `inf > 150` holds. -/
def deviates (px py : ℚ) (pts : List (ℚ × ℚ)) : Bool :=
  match minDistSqToTrack px py pts with
  | Option.none => true
  | some b => decide (DEVIATION_THRESHOLD_SQ < b)

/-- `extract_pit_lane_path` (src/generate_static.py:277-329): take this
driver's first pit stop, collect the location samples inside the lane window
with an 8 s buffer on each side, and if a track outline is present keep only
the points deviating from it; output is the retained list of
(x, y) pairs. -/
def extract_pit_lane_path (locs : List Sample) (pits : List PitRec)
    (driver_number : ℤ) (track_x track_y : List ℚ) : List (ℚ × ℚ) :=
  match (pits.filter (fun p => decide (p.driver_number = driver_number))).head? with
  | Option.none => []
  | some pit =>
    let lane_duration := pit.lane_duration.getD 30
    let pit_start_t := pit.t
    let pit_end_t := pit_start_t + lane_duration
    let raw_path := locs.filter
      (fun l => decide (pit_start_t - 8 ≤ l.t ∧ l.t ≤ pit_end_t + 8))
    if raw_path = [] ∨ track_x = [] then
      raw_path.map (fun l => (l.x, l.y))
    else
      let track_pts := track_x.zip track_y
      (raw_path.filter (fun l => deviates l.x l.y track_pts)).map
        (fun l => (l.x, l.y))

theorem minDistSq_fold_some (px py : ℚ) :
    ∀ (pts : List (ℚ × ℚ)) (b : ℚ),
      ∃ r, pts.foldl
        (fun best q =>
          let dsq := (px - q.1)^2 + (py - q.2)^2
          match best with
          | Option.none => some dsq
          | some b => if dsq < b then some dsq else some b)
        (some b) = some r ∧
      ∀ c : ℚ, c < r ↔ c < b ∧ ∀ q ∈ pts, c < (px - q.1)^2 + (py - q.2)^2 := by
  intro pts
  induction pts with
  | nil =>
    intro b
    exact ⟨b, rfl, fun c => by simp⟩
  | cons q pts ih =>
    intro b
    rw [List.foldl_cons]
    by_cases hlt : (px - q.1)^2 + (py - q.2)^2 < b
    · obtain ⟨r, hr, hc⟩ := ih ((px - q.1)^2 + (py - q.2)^2)
      refine ⟨r, ?_, fun c => ?_⟩
      · show List.foldl _
          (if (px - q.1)^2 + (py - q.2)^2 < b
            then some ((px - q.1)^2 + (py - q.2)^2) else some b) pts = some r
        rw [if_pos hlt]
        exact hr
      rw [hc c]
      constructor
      · rintro ⟨h1, h2⟩
        exact ⟨lt_trans h1 hlt, fun x hx => by
          rcases List.mem_cons.mp hx with rfl | hx2
          · exact h1
          · exact h2 x hx2⟩
      · rintro ⟨h1, h2⟩
        exact ⟨h2 q (List.mem_cons_self q pts), fun x hx =>
          h2 x (List.mem_cons_of_mem q hx)⟩
    · obtain ⟨r, hr, hc⟩ := ih b
      refine ⟨r, ?_, fun c => ?_⟩
      · show List.foldl _
          (if (px - q.1)^2 + (py - q.2)^2 < b
            then some ((px - q.1)^2 + (py - q.2)^2) else some b) pts = some r
        rw [if_neg hlt]
        exact hr
      rw [hc c]
      constructor
      · rintro ⟨h1, h2⟩
        refine ⟨h1, fun x hx => ?_⟩
        rcases List.mem_cons.mp hx with rfl | hx2
        · exact lt_of_lt_of_le h1 (not_lt.mp hlt)
        · exact h2 x hx2
      · rintro ⟨h1, h2⟩
        exact ⟨h1, fun x hx => h2 x (List.mem_cons_of_mem q hx)⟩

/-- The source's retention test `sqrt(min d²) > 150` holds exactly when every
outline point is farther than the threshold. -/
theorem deviates_iff (px py : ℚ) (pts : List (ℚ × ℚ)) :
    deviates px py pts = true ↔
      ∀ q ∈ pts, DEVIATION_THRESHOLD_SQ < (px - q.1)^2 + (py - q.2)^2 := by
  cases pts with
  | nil => simp [deviates, minDistSqToTrack]
  | cons q pts =>
    rw [deviates, minDistSqToTrack, List.foldl_cons]
    obtain ⟨r, hr, hc⟩ := minDistSq_fold_some px py pts
      ((px - q.1)^2 + (py - q.2)^2)
    simp only at hr
    rw [hr]
    simp only [decide_eq_true_eq]
    rw [hc DEVIATION_THRESHOLD_SQ]
    constructor
    · rintro ⟨h1, h2⟩ x hx
      rcases List.mem_cons.mp hx with rfl | hx2
      · exact h1
      · exact h2 x hx2
    · intro h
      exact ⟨h q (List.mem_cons_self q pts), fun x hx =>
        h x (List.mem_cons_of_mem q hx)⟩

/-- C6: when a pit record is found for the driver and the track outline is
nonempty, the retained pit-lane path consists exactly of the location
samples whose timestamp lies within
`[pit_t - 8, pit_t + lane_duration + 8]` (lane duration defaulting to 30)
and whose Euclidean distance to every outline point exceeds 150 length
units (squared comparison against 150² = 22500), as `[x, y]` pairs in input
order. -/
theorem pit_path_filter (locs : List Sample) (pits : List PitRec)
    (dn : ℤ) (track_x track_y : List ℚ) (pit : PitRec)
    (hpit : (pits.filter (fun p => decide (p.driver_number = dn))).head? =
      some pit)
    (htrack : track_x ≠ []) :
    extract_pit_lane_path locs pits dn track_x track_y =
      (locs.filter (fun l => decide (
        (pit.t - 8 ≤ l.t ∧ l.t ≤ pit.t + pit.lane_duration.getD 30 + 8) ∧
        ∀ q ∈ track_x.zip track_y,
          DEVIATION_THRESHOLD_SQ < (l.x - q.1)^2 + (l.y - q.2)^2))).map
        (fun l => (l.x, l.y)) := by
  have hpoint : ∀ l : Sample,
      (decide ((pit.t - 8 ≤ l.t ∧ l.t ≤ pit.t + pit.lane_duration.getD 30 + 8) ∧
        ∀ q ∈ track_x.zip track_y,
          DEVIATION_THRESHOLD_SQ < (l.x - q.1)^2 + (l.y - q.2)^2)) =
      (deviates l.x l.y (track_x.zip track_y) &&
        decide (pit.t - 8 ≤ l.t ∧ l.t ≤ pit.t + pit.lane_duration.getD 30 + 8)) := by
    intro l
    by_cases hD : ∀ q ∈ track_x.zip track_y,
        DEVIATION_THRESHOLD_SQ < (l.x - q.1)^2 + (l.y - q.2)^2
    · have h1 : deviates l.x l.y (track_x.zip track_y) = true :=
        (deviates_iff _ _ _).mpr hD
      by_cases hW : pit.t - 8 ≤ l.t ∧ l.t ≤ pit.t + pit.lane_duration.getD 30 + 8
      · rw [decide_eq_true (And.intro hW hD), h1, decide_eq_true hW]
        rfl
      · rw [decide_eq_false (fun hcontra => hW hcontra.1), h1,
          decide_eq_false hW]
        rfl
    · have h1 : deviates l.x l.y (track_x.zip track_y) = false := by
        cases h : deviates l.x l.y (track_x.zip track_y)
        · rfl
        · exact absurd ((deviates_iff _ _ _).mp h) hD
      rw [decide_eq_false (fun hcontra => hD hcontra.2), h1]
      rfl
  have hsplit : locs.filter (fun l => decide (
      (pit.t - 8 ≤ l.t ∧ l.t ≤ pit.t + pit.lane_duration.getD 30 + 8) ∧
      ∀ q ∈ track_x.zip track_y,
        DEVIATION_THRESHOLD_SQ < (l.x - q.1)^2 + (l.y - q.2)^2)) =
      (locs.filter (fun l => decide (pit.t - 8 ≤ l.t ∧
        l.t ≤ pit.t + pit.lane_duration.getD 30 + 8))).filter
        (fun l => deviates l.x l.y (track_x.zip track_y)) := by
    rw [List.filter_congr (fun l _ => hpoint l), List.filter_filter]
  simp only [extract_pit_lane_path, hpit, hsplit]
  by_cases hraw : locs.filter (fun l => decide (pit.t - 8 ≤ l.t ∧
      l.t ≤ pit.t + pit.lane_duration.getD 30 + 8)) = []
  · rw [if_pos (Or.inl hraw), hraw]
    simp
  · rw [if_neg (by rintro (h | h); exact hraw h; exact htrack h)]

/-- Counterexample for C2 as stated: one pit stop at t = 0 with lane
duration 0, one location sample at t = 0 inside the window (so the window is
the nonempty `[(0,0,0)]`), and a one-point outline at the origin. The sample
is within the deviation threshold, so nothing survives filtering — and the
extractor returns the EMPTY list, not the raw unfiltered window `[(0, 0)]`
the claim promises. -/
theorem pit_path_empty_when_filtered_out :
    extract_pit_lane_path [⟨0, 0, 0⟩] [⟨1, 0, some 0⟩] 1 [0] [0] = [] ∧
    ([⟨0, 0, 0⟩] : List Sample).filter
      (fun l => decide ((0:ℚ) - 8 ≤ l.t ∧ l.t ≤ 0 + 0 + 8)) =
      [⟨0, 0, 0⟩] := by
  constructor
  · with_unfolding_all decide
  · with_unfolding_all decide

/-- C2 (amended): with a pit record found, the raw-window fallback applies
exactly when the track outline is empty; when the outline is nonempty and no
candidate point deviates beyond the threshold, the extractor returns the
empty list (not the raw window). -/
theorem pit_path_fallback (locs : List Sample) (pits : List PitRec)
    (dn : ℤ) (track_x track_y : List ℚ) (pit : PitRec)
    (hpit : (pits.filter (fun p => decide (p.driver_number = dn))).head? =
      some pit) :
    (track_x = [] →
      extract_pit_lane_path locs pits dn track_x track_y =
        (locs.filter (fun l => decide (pit.t - 8 ≤ l.t ∧
          l.t ≤ pit.t + pit.lane_duration.getD 30 + 8))).map
          (fun l => (l.x, l.y))) ∧
    (track_x ≠ [] →
      (∀ l ∈ locs.filter (fun l => decide (pit.t - 8 ≤ l.t ∧
          l.t ≤ pit.t + pit.lane_duration.getD 30 + 8)),
        deviates l.x l.y (track_x.zip track_y) = false) →
      extract_pit_lane_path locs pits dn track_x track_y = []) := by
  constructor
  · intro htr
    simp only [extract_pit_lane_path, hpit]
    by_cases hraw : locs.filter (fun l => decide (pit.t - 8 ≤ l.t ∧
        l.t ≤ pit.t + pit.lane_duration.getD 30 + 8)) = []
    · rw [if_pos (Or.inl hraw)]
    · rw [if_pos (Or.inr htr)]
  · intro htr hnodev
    simp only [extract_pit_lane_path, hpit]
    by_cases hraw : locs.filter (fun l => decide (pit.t - 8 ≤ l.t ∧
        l.t ≤ pit.t + pit.lane_duration.getD 30 + 8)) = []
    · rw [if_pos (Or.inl hraw), hraw]
      simp
    · rw [if_neg (by rintro (h | h); exact hraw h; exact htr h)]
      have : (locs.filter (fun l => decide (pit.t - 8 ≤ l.t ∧
          l.t ≤ pit.t + pit.lane_duration.getD 30 + 8))).filter
          (fun l => deviates l.x l.y (track_x.zip track_y)) = [] :=
        List.filter_eq_nil_iff.mpr (fun a ha => by rw [hnodev a ha]; simp)
      rw [this]
      simp

/-- Witness for C6: pit at t = 0 (lane 0), one sample at t = 0 at (200, 0),
outline the single point (0, 0); the sample deviates (200² > 150²) and is
retained. -/
theorem pit_path_filter_witness :
    extract_pit_lane_path [⟨0, 200, 0⟩] [⟨1, 0, some 0⟩] 1 [0] [0] =
      (([⟨0, 200, 0⟩] : List Sample).filter (fun l => decide (
        ((⟨1, 0, some 0⟩ : PitRec).t - 8 ≤ l.t ∧
          l.t ≤ (⟨1, 0, some 0⟩ : PitRec).t +
            (⟨1, 0, some 0⟩ : PitRec).lane_duration.getD 30 + 8) ∧
        ∀ q ∈ ([(0:ℚ)]).zip ([(0:ℚ)]),
          DEVIATION_THRESHOLD_SQ < (l.x - q.1)^2 + (l.y - q.2)^2))).map
        (fun l => (l.x, l.y)) :=
  pit_path_filter [⟨0, 200, 0⟩] [⟨1, 0, some 0⟩] 1 [0] [0] ⟨1, 0, some 0⟩
    (by with_unfolding_all decide) (by with_unfolding_all decide)

/-- Witness for C2 (amended) at the counterexample's inputs: the outline is
nonempty and the only window point is within the threshold, so the result is
empty. -/
theorem pit_path_fallback_witness :
    (([(0:ℚ)] : List ℚ) = [] →
      extract_pit_lane_path [⟨0, 0, 0⟩] [⟨1, 0, some 0⟩] 1 [0] [0] =
        (([⟨0, 0, 0⟩] : List Sample).filter (fun l => decide (
          (⟨1, 0, some 0⟩ : PitRec).t - 8 ≤ l.t ∧
          l.t ≤ (⟨1, 0, some 0⟩ : PitRec).t +
            (⟨1, 0, some 0⟩ : PitRec).lane_duration.getD 30 + 8))).map
          (fun l => (l.x, l.y))) ∧
    (([(0:ℚ)] : List ℚ) ≠ [] →
      (∀ l ∈ ([⟨0, 0, 0⟩] : List Sample).filter (fun l => decide (
          (⟨1, 0, some 0⟩ : PitRec).t - 8 ≤ l.t ∧
          l.t ≤ (⟨1, 0, some 0⟩ : PitRec).t +
            (⟨1, 0, some 0⟩ : PitRec).lane_duration.getD 30 + 8)),
        deviates l.x l.y (([(0:ℚ)]).zip ([(0:ℚ)])) = false) →
      extract_pit_lane_path [⟨0, 0, 0⟩] [⟨1, 0, some 0⟩] 1 [0] [0] = []) :=
  pit_path_fallback [⟨0, 0, 0⟩] [⟨1, 0, some 0⟩] 1 [0] [0] ⟨1, 0, some 0⟩
    (by with_unfolding_all decide)

/-- A raw OpenF1 lap record as read by the lap-selection step of
`extract_track_outline` (src/generate_static.py:242-257). `lap_number`
models `l.get('lap_number', 0)` (absent key → default 0); `is_pit_out_lap`
models `l.get('is_pit_out_lap')` (`none` = key absent or null), a lap being
excluded only when the value `is True`. -/
structure RawLap where
  driver_number : ℤ
  lap_duration : Option ℚ
  is_pit_out_lap : Option Bool
  lap_number : Option ℤ
deriving DecidableEq

/-- First element attaining the minimal `lap_duration`: the source stably
sorts `driver_laps` by `lap_duration` (all candidates have one) and takes
`[0]`, which is exactly the first-listed lap among those with the minimal
duration. -/
def minByDuration : List RawLap → Option RawLap
  | [] => Option.none
  | l :: rest =>
    match minByDuration rest with
    | Option.none => some l
    | some m =>
      if m.lap_duration.getD 0 < l.lap_duration.getD 0 then some m else some l

/-- The lap-selection step of `extract_track_outline`
(src/generate_static.py:242-257): prefer this driver's laps with a recorded
duration, not flagged as pit-out, and lap number > 3; if none, fall back to
any of the driver's laps with a recorded duration; pick the minimal-duration
lap. `none` when even the fallback is empty (the source then returns an
empty outline). -/
def selectOutlineLap (laps_data : List RawLap) (driver_number : ℤ) :
    Option RawLap :=
  let driver_laps := laps_data.filter (fun l =>
    decide (l.driver_number = driver_number) && l.lap_duration.isSome &&
    decide (l.is_pit_out_lap ≠ some true) && decide (3 < l.lap_number.getD 0))
  let fallback_laps :=
    if driver_laps = [] then
      laps_data.filter (fun l =>
        decide (l.driver_number = driver_number) && l.lap_duration.isSome)
    else driver_laps
  minByDuration fallback_laps

/-- Counterexample for C3 as stated: on the spec's own lap set
{1: no duration; 2: 90.2 pit-out; 3: 88.1; 4: 89.0} the extractor selects
lap 4 (duration 89.0), NOT lap 3 — lap 3 is excluded by the very
`lap_number > 3` filter the claim quotes. -/
theorem outline_lap_selection_not_lap3 :
    selectOutlineLap
      [⟨1, Option.none, Option.none, some 1⟩,
        ⟨1, some (451/5), some true, some 2⟩,
        ⟨1, some (881/10), Option.none, some 3⟩,
        ⟨1, some 89, Option.none, some 4⟩] 1 ≠
      some ⟨1, some (881/10), Option.none, some 3⟩ := by
  with_unfolding_all decide

/-- C3 (amended): on the lap set {1: no duration; 2: duration 90.2 pit-out;
3: duration 88.1; 4: duration 89.0} the extractor selects lap 4 (duration
89.0): lap 1 lacks a duration, laps 1-3 all fail the `lap_number > 3`
filter (lap 2 is additionally a pit-out lap), so lap 4 is the only
candidate and no fallback is taken. -/
theorem outline_lap_selection_lap4 :
    selectOutlineLap
      [⟨1, Option.none, Option.none, some 1⟩,
        ⟨1, some (451/5), some true, some 2⟩,
        ⟨1, some (881/10), Option.none, some 3⟩,
        ⟨1, some 89, Option.none, some 4⟩] 1 =
      some ⟨1, some 89, Option.none, some 4⟩ := by
  with_unfolding_all decide

/-- `compute_track_rotation` (src/generate_static.py:332-351), parameterized
by `angleDeg`, the composite `math.degrees(math.atan2(dy, dx))`: a
transcendental float computation whose exact value (every float is some
rational) is left abstract; no verified property depends on it. Out-of-range
indexing cannot occur for the parallel coordinate lists the source passes
(`n < length` once `length ≥ 20`), modelled with `getD`. -/
def compute_track_rotation (angleDeg : ℚ → ℚ → ℚ)
    (track_x track_y : List ℚ) : ℚ :=
  if track_x.length < 20 then 0
  else
    let n := max 5 (track_x.length * 3 / 100)
    let dx := track_x.getD n 0 - track_x.getD 0 0
    let dy := track_y.getD n 0 - track_y.getD 0 0
    round2 (-(angleDeg dy dx))

/-- Modelled from the spec (§4.4): exactly 0.0 for fewer than 20 points;
otherwise the negation of the angle (in degrees, rounded to two decimal
places) of the vector from point 0 to the point at index
`max(5, 3% of the point count)`. -/
def specTrackRotation (angleDeg : ℚ → ℚ → ℚ)
    (track_x track_y : List ℚ) : ℚ :=
  if track_x.length < 20 then 0
  else
    let n := max 5 (track_x.length * 3 / 100)
    let dx := track_x.getD n 0 - track_x.getD 0 0
    let dy := track_y.getD n 0 - track_y.getD 0 0
    Neg.neg (round2 (angleDeg dy dx))

/-- Banker's rounding is an odd function. -/
theorem pyRound_neg (q : ℚ) : pyRound (-q) = -pyRound q := by
  by_cases hint : q - ⌊q⌋ = 0
  · have hq : q = ((⌊q⌋ : ℤ) : ℚ) := by linarith
    rw [hq, ← Int.cast_neg, pyRound_intCast, pyRound_intCast]
  · have h1 : ((⌊q⌋ : ℤ) : ℚ) < q :=
      lt_of_le_of_ne (Int.floor_le q) (fun h => hint (by linarith))
    have h2 : q < ((⌊q⌋ : ℤ) : ℚ) + 1 := Int.lt_floor_add_one q
    have hfloor : ⌊-q⌋ = -⌊q⌋ - 1 := by
      rw [Int.floor_eq_iff]
      constructor
      · push_cast
        linarith
      · push_cast
        linarith
    rw [pyRound, pyRound, hfloor]
    have hsub : -q - ((-⌊q⌋ - 1 : ℤ) : ℚ) = 1 - (q - ⌊q⌋) := by
      push_cast
      ring
    split_ifs <;> push_cast at * <;>
      first
      | omega
      | linarith
      | (exfalso; omega)
      | (exfalso; linarith)

/-- Rounding to two decimals is an odd function, so rounding the negated
angle and negating the rounded angle agree. -/
theorem round2_neg (q : ℚ) : round2 (-q) = -(round2 q) := by
  rw [round2, round2, show -q * 100 = -(q * 100) from by ring, pyRound_neg]
  push_cast
  ring

/-- C7: for every track outline (and every value of the abstract
`atan2`-in-degrees function), the rotation estimator returns exactly 0.0
when the outline has fewer than 20 points, and otherwise returns the
negation of the two-decimal-rounded angle of the vector from point 0 to the
point at index `max(5, 3% of point count)` — the spec-side
`specTrackRotation`. -/
theorem track_rotation_meets_spec (angleDeg : ℚ → ℚ → ℚ)
    (track_x track_y : List ℚ) :
    compute_track_rotation angleDeg track_x track_y =
      specTrackRotation angleDeg track_x track_y ∧
    (track_x.length < 20 →
      compute_track_rotation angleDeg track_x track_y = 0) := by
  constructor
  · rw [compute_track_rotation, specTrackRotation]
    by_cases h : track_x.length < 20
    · rw [if_pos h, if_pos h]
    · rw [if_neg h, if_neg h]
      exact round2_neg _
  · intro h
    rw [compute_track_rotation, if_pos h]

/-- Witness for C7 at a concrete 3-point outline: the degenerate branch
returns exactly 0. -/
theorem track_rotation_witness :
    compute_track_rotation (fun _ _ => 0) [0, 1, 2] [0, 0, 0] =
      specTrackRotation (fun _ _ => 0) [0, 1, 2] [0, 0, 0] ∧
    (([(0:ℚ), 1, 2]).length < 20 →
      compute_track_rotation (fun _ _ => 0) [0, 1, 2] [0, 0, 0] = 0) :=
  track_rotation_meets_spec (fun _ _ => 0) [0, 1, 2] [0, 0, 0]

/-- A Python float value: a finite value (exactly represented as ℚ) or one
of the non-finite floats NaN, +inf, -inf. -/
inductive PyFloat where
  | finite (q : ℚ)
  | nan
  | inf
  | ninf
deriving DecidableEq

/-- `math.isnan(x) or math.isinf(x)`. -/
def PyFloat.nonFinite : PyFloat → Bool
  | .finite _ => false
  | _ => true

/-- A JSON-serializable Python value as fed to `_scrub`: `None`, `bool`,
`int`, `float`, `str`, `list`, and `dict` with string keys. -/
inductive PyVal where
  | null
  | bool (b : Bool)
  | int (n : ℤ)
  | float (f : PyFloat)
  | str (s : String)
  | list (items : List PyVal)
  | dict (entries : List (String × PyVal))

/-- `_scrub` (src/generate_static.py:93-101; the `_scrub` of
src/server.py:21-37 is identical after its numpy-scalar-to-Python
conversion, which has no counterpart in this model): recursively replace
every non-finite float by `None`, descending through dicts and lists and
leaving every other value unchanged. -/
def scrub : PyVal → PyVal
  | .dict entries =>
    .dict (entries.attach.map (fun kv => (kv.1.1, scrub kv.1.2)))
  | .list items => .list (items.attach.map (fun it => scrub it.1))
  | .float f => if f.nonFinite then .null else .float f
  | v => v
termination_by v => sizeOf v
decreasing_by
  · obtain ⟨⟨k, v⟩, hmem⟩ := kv
    have := List.sizeOf_lt_of_mem hmem
    simp at this ⊢
    omega
  · obtain ⟨x, hmem⟩ := it
    have := List.sizeOf_lt_of_mem hmem
    simp at this ⊢
    omega

/-- No non-finite float occurs anywhere in the value. -/
def noNonFinite : PyVal → Bool
  | .dict entries => entries.attach.all (fun kv => noNonFinite kv.1.2)
  | .list items => items.attach.all (fun it => noNonFinite it.1)
  | .float f => !f.nonFinite
  | _ => true
termination_by v => sizeOf v
decreasing_by
  · obtain ⟨⟨k, v⟩, hmem⟩ := kv
    have := List.sizeOf_lt_of_mem hmem
    simp at this ⊢
    omega
  · obtain ⟨x, hmem⟩ := it
    have := List.sizeOf_lt_of_mem hmem
    simp at this ⊢
    omega

/-- C9: for every payload, the serialization-boundary scrub leaves no
floating-point NaN or infinity anywhere in the value: every non-finite float
at any nesting depth inside dicts and lists has been replaced by null. -/
theorem scrub_no_nonfinite : ∀ v : PyVal, noNonFinite (scrub v) = true
  | .null => by simp only [scrub, noNonFinite]
  | .bool b => by simp only [scrub, noNonFinite]
  | .int n => by simp only [scrub, noNonFinite]
  | .str s => by simp only [scrub, noNonFinite]
  | .float f => by
    simp only [scrub]
    by_cases hf : f.nonFinite = true
    · rw [if_pos hf]
      simp only [noNonFinite]
    · rw [if_neg hf]
      simp only [noNonFinite]
      simp [Bool.not_eq_true] at hf
      rw [hf]
      rfl
  | .list items => by
    simp only [scrub, noNonFinite]
    rw [List.all_eq_true]
    intro x hx
    obtain ⟨it, hit, heq⟩ := List.mem_map.mp x.2
    rw [← heq]
    exact scrub_no_nonfinite it.1
  | .dict entries => by
    simp only [scrub, noNonFinite]
    rw [List.all_eq_true]
    intro x hx
    obtain ⟨kv, hkv, heq⟩ := List.mem_map.mp x.2
    rw [← heq]
    exact scrub_no_nonfinite kv.1.2
termination_by v => sizeOf v
decreasing_by
  · obtain ⟨y, hmem⟩ := it
    have := List.sizeOf_lt_of_mem hmem
    simp at this ⊢
    omega
  · obtain ⟨⟨k, y⟩, hmem⟩ := kv
    have := List.sizeOf_lt_of_mem hmem
    simp at this ⊢
    omega

end F1Replay
